import Mathlib

/-
Verification of the Local Bundle Adjustment scheduling core of AliceVision
(src/src/openMVG/sfm/sfm_data_localBA.hpp, class openMVG::sfm::LocalBA_Data).

The sampled source provides the class declaration with a few inline member
definitions (the state getters, setNewViewsId/getNewViewsId, and the member
data with its documentation); the out-of-line member bodies are not part of
the sample.  Definitions for those members are modelled from the spec and
carry a doc comment saying so.
-/

set_option maxHeartbeats 1000000
set_option linter.unusedVariables false

namespace LocalBA

/-- The three participation states of a parameter in the bundle adjustment
(header lines 128-132): refined (adjusted by the solver), constant (in the
solver but fixed), ignored (not in the solver). -/
inductive ELocalBAState
  | refined
  | constant
  | ignored
deriving DecidableEq, Repr

/-- Model of the lookup performed by std::map::at as used by the inline
getters (header lines 135-138, 180): the mapped value when the key is
present, and an out-of-range error raised to the caller otherwise.  Maps are
modelled as association lists with unique keys. -/
def mapAt {α : Type} (m : List (ℕ × α)) (k : ℕ) : Except Unit α :=
  match m.lookup k with
  | some v => Except.ok v
  | none => Except.error ()

/-- getPoseState (header line 135): returns _mapLBAStatePerPoseId.at(poseId). -/
def getPoseState (m : List (ℕ × ELocalBAState)) (poseId : ℕ) : Except Unit ELocalBAState :=
  mapAt m poseId

/-- getIntrinsicState (header line 136): returns _mapLBAStatePerIntrinsicId.at(intrinsicId). -/
def getIntrinsicState (m : List (ℕ × ELocalBAState)) (intrinsicId : ℕ) :
    Except Unit ELocalBAState :=
  mapAt m intrinsicId

/-- getLandmarkState (header line 137): returns _mapLBAStatePerLandmarkId.at(landmarkId). -/
def getLandmarkState (m : List (ℕ × ELocalBAState)) (landmarkId : ℕ) :
    Except Unit ELocalBAState :=
  mapAt m landmarkId

/-- Modelled from the spec: the body of getPoseDistance (declared at header
line 78) is not in the sampled source.  Per spec section 7, a query for an id
that is not present degrades to "treat as unreachable", i.e. the sentinel -1
of _mapDistancePerPoseId (header line 214). -/
def getPoseDistance (m : List (ℕ × Int)) (poseId : ℕ) : Int :=
  match m.lookup poseId with
  | some d => d
  | none => -1

/-- Modelled from the spec: the body of getViewDistance (declared at header
line 80) is not in the sampled source.  Unknown view ids degrade to the
sentinel -1 of _mapDistancePerViewId (header line 212). -/
def getViewDistance (m : List (ℕ × Int)) (viewId : ℕ) : Int :=
  match m.lookup viewId with
  | some d => d
  | none => -1

/-- Model of the _newViewsId member (header line 209), a std::set of view
ids, modelled as a Finset. -/
structure NewViewsData where
  newViewsId : Finset ℕ
deriving DecidableEq

/-- setNewViewsId (header line 88): _newViewsId = newPosesId. -/
def setNewViewsId (d : NewViewsData) (newPosesId : Finset ℕ) : NewViewsData :=
  NewViewsData.mk newPosesId

/-- getNewViewsId (header line 82): returns _newViewsId by value. -/
def getNewViewsId (d : NewViewsData) : Finset ℕ :=
  d.newViewsId

/-- Modelled from the spec: the body of convertDistancesToLBAStates (declared
at header line 125) is not in the sampled source.  Per spec section 4.3, a
landmark is refined if at least one observing pose is refined; constant if
all observing poses are constant (no refined observer); ignored otherwise
(in particular when every observing pose is ignored).  The argument is the
list of states of the observing poses. -/
def landmarkStateFromObservers (obs : List ELocalBAState) : ELocalBAState :=
  if obs.any (fun s => decide (s = ELocalBAState.refined)) then ELocalBAState.refined
  else if obs.all (fun s => decide (s = ELocalBAState.constant)) then ELocalBAState.constant
  else ELocalBAState.ignored

/-- C10: setNewViewsId stores the given set unchanged and getNewViewsId
returns it: for every state and every set S, getNewViewsId (setNewViewsId d S)
is exactly S. -/
theorem C10_set_get_newViewsId (d : NewViewsData) (s : Finset ℕ) :
    getNewViewsId (setNewViewsId d s) = s := rfl

/-- C3 counterexample: a landmark observed by one constant pose and one
ignored pose is classified ignored although not every observing pose is
ignored, refuting the claimed equivalence "ignored iff every observing pose
is ignored". -/
theorem C3_counterexample :
    landmarkStateFromObservers [ELocalBAState.constant, ELocalBAState.ignored] =
      ELocalBAState.ignored
    ∧ ¬ (∀ s ∈ [ELocalBAState.constant, ELocalBAState.ignored], s = ELocalBAState.ignored) := by
  decide

/-- C3 (amended): a landmark is refined iff at least one observing pose is
refined; constant iff all observing poses are constant; ignored iff no
observing pose is refined and not all are constant (in particular a landmark
all of whose observers are ignored is ignored). -/
theorem C3_landmark_classification (obs : List ELocalBAState) :
    (landmarkStateFromObservers obs = ELocalBAState.refined ↔
      ∃ s ∈ obs, s = ELocalBAState.refined)
    ∧ (landmarkStateFromObservers obs = ELocalBAState.constant ↔
      ∀ s ∈ obs, s = ELocalBAState.constant)
    ∧ (landmarkStateFromObservers obs = ELocalBAState.ignored ↔
      ((∀ s ∈ obs, s ≠ ELocalBAState.refined) ∧ ¬ (∀ s ∈ obs, s = ELocalBAState.constant))) := by
  unfold landmarkStateFromObservers
  by_cases h1 : ∃ s ∈ obs, s = ELocalBAState.refined
  · have hb1 : obs.any (fun s => decide (s = ELocalBAState.refined)) = true := by
      simp only [List.any_eq_true, decide_eq_true_iff]
      exact h1
    rw [if_pos hb1]
    refine ⟨⟨fun _ => h1, fun _ => rfl⟩, ?_, ?_⟩
    · constructor
      · intro h; exact absurd h (by decide)
      · intro hall
        obtain ⟨s, hs, hrfl⟩ := h1
        have hc := hall s hs
        rw [hrfl] at hc
        exact absurd hc (by decide)
    · constructor
      · intro h; exact absurd h (by decide)
      · rintro ⟨hnone, -⟩
        obtain ⟨s, hs, hrfl⟩ := h1
        exact absurd hrfl (hnone s hs)
  · have hb1 : obs.any (fun s => decide (s = ELocalBAState.refined)) = false := by
      simp only [List.any_eq_false, decide_eq_true_iff]
      intro s hs hcon
      exact h1 ⟨s, hs, hcon⟩
    rw [if_neg (by simp [hb1])]
    by_cases h2 : ∀ s ∈ obs, s = ELocalBAState.constant
    · have hb2 : obs.all (fun s => decide (s = ELocalBAState.constant)) = true := by
        simp only [List.all_eq_true, decide_eq_true_iff]
        exact h2
      rw [if_pos hb2]
      refine ⟨?_, ⟨fun _ => h2, fun _ => rfl⟩, ?_⟩
      · constructor
        · intro h; exact absurd h (by decide)
        · intro h; exact absurd h h1
      · constructor
        · intro h; exact absurd h (by decide)
        · rintro ⟨-, hnc⟩
          exact absurd h2 hnc
    · have hb2 : obs.all (fun s => decide (s = ELocalBAState.constant)) = false := by
        simp only [List.all_eq_false]
        push_neg at h2
        obtain ⟨s, hs, hne⟩ := h2
        exact ⟨s, hs, by simpa using hne⟩
      rw [if_neg (by simp [hb2])]
      refine ⟨?_, ?_, ?_⟩
      · constructor
        · intro h; exact absurd h (by decide)
        · intro h; exact absurd h h1
      · constructor
        · intro h; exact absurd h (by decide)
        · intro h; exact absurd h h2
      · constructor
        · intro _
          exact ⟨fun s hs hcon => h1 ⟨s, hs, hcon⟩, h2⟩
        · intro _
          rfl

/-- C9 counterexample: querying the state of a pose id absent from the state
map raises an out-of-range error to the caller (std::map::at, header line
135); it does not degrade to returning the state ignored. -/
theorem C9_counterexample :
    getPoseState [] 0 = Except.error ()
    ∧ getPoseState [] 0 ≠ Except.ok ELocalBAState.ignored := by
  refine ⟨rfl, ?_⟩
  intro h
  exact Except.noConfusion h

/-- C9 (amended): a query for an unknown id is never answered with an
arbitrary state: the three state getters raise an out-of-range error to the
caller, while the distance getters degrade to the unreachable sentinel -1. -/
theorem C9_unknown_id_queries (mS mI mL : List (ℕ × ELocalBAState))
    (mD mV : List (ℕ × Int)) (id : ℕ)
    (hS : mS.lookup id = none) (hI : mI.lookup id = none) (hL : mL.lookup id = none)
    (hD : mD.lookup id = none) (hV : mV.lookup id = none) :
    getPoseState mS id = Except.error ()
    ∧ getIntrinsicState mI id = Except.error ()
    ∧ getLandmarkState mL id = Except.error ()
    ∧ getPoseDistance mD id = -1
    ∧ getViewDistance mV id = -1 := by
  unfold getPoseState getIntrinsicState getLandmarkState getPoseDistance getViewDistance mapAt
  rw [hS, hI, hL, hD, hV]
  exact ⟨rfl, rfl, rfl, rfl, rfl⟩

/-- C9 witness: the amended statement instantiated at empty maps and id 0. -/
theorem C9_unknown_id_queries_witness :
    getPoseState [] 0 = Except.error ()
    ∧ getIntrinsicState [] 0 = Except.error ()
    ∧ getLandmarkState [] 0 = Except.error ()
    ∧ getPoseDistance [] 0 = -1
    ∧ getViewDistance [] 0 = -1 :=
  C9_unknown_id_queries [] [] [] [] [] 0 rfl rfl rfl rfl rfl

/-- Mean of a list of rationals (0 for the empty list, by total division). -/
def mean (l : List ℚ) : ℚ := l.sum / l.length

/-- Modelled from the spec: the body of standardDeviation (declared at header
lines 187-188) is not in the sampled source.  This is the population
variance, the square of the standard deviation: the mean of the squared
deviations from the mean.  Per spec section 4.4 the standard deviation of
fewer than 2 samples is 0, which total division gives for the empty list. -/
def populationVariance (l : List ℚ) : ℚ :=
  ((l.map (fun x => (x - mean l) ^ 2)).sum) / l.length

/-- The last w entries of a history (the whole history when it is shorter). -/
def lastEntries (w : ℕ) (l : List ℚ) : List ℚ := l.drop (l.length - w)

/-- The larger of two rationals. -/
def qmax (a b : ℚ) : ℚ := if a ≤ b then b else a

/-- The smaller of two rationals. -/
def qmin (a b : ℚ) : ℚ := if a ≤ b then a else b

/-- max(H) - min(H) over an entire history (0 for the empty history). -/
def rangeOfHistory (l : List ℚ) : ℚ :=
  l.foldl qmax (l.headD 0) - l.foldl qmin (l.headD 0)

/-- Modelled from the spec: the body of checkIntrinsicsConsistency (declared
at header line 156 and documented at lines 146-155) is not in the sampled
source.  Per that documentation and spec section 4.4: not converged when the
history holds fewer than windowSize samples; otherwise sigma is the
population standard deviation of the last windowSize samples and range is
max - min over the whole history; converged when range is 0, and otherwise
exactly when sigma / range < stdevPercentageLimit.  To keep the definition
executable over the rationals, the comparison sigma / range < limit (sigma
being the square root of the variance, range positive) is written in the
equivalent squared form: 0 < limit and variance < (limit * range)^2.  The
equivalence with the real-valued comparison is proved in
C4_convergence_check. -/
def checkConvergence (hist : List ℚ) (windowSize : ℕ) (stdevPercentageLimit : ℚ) : Bool :=
  if hist.length < windowSize then false
  else if rangeOfHistory hist = 0 then true
  else decide (0 < stdevPercentageLimit) &&
    decide (populationVariance (lastEntries windowSize hist) <
      (stdevPercentageLimit * rangeOfHistory hist) ^ 2)

theorem populationVariance_nonneg (l : List ℚ) : 0 ≤ populationVariance l := by
  unfold populationVariance
  apply div_nonneg
  · apply List.sum_nonneg
    intro x hx
    simp only [List.mem_map] at hx
    obtain ⟨y, -, rfl⟩ := hx
    positivity
  · positivity

/-- C4: the convergence check is the comparison of the population standard
deviation of the last windowSize samples, normalized by the range of the
whole history, against the limit: a history shorter than the window is never
converged; for positive range the rational check holds exactly when
sigma / range < limit over the reals; and the concrete history
[1000.0, 1000.4, 999.8, 1000.1] with windowSize 4 and limit 0.01 is not
converged. -/
theorem C4_convergence_check :
    (∀ (hist : List ℚ) (w : ℕ) (limit : ℚ), hist.length < w →
      checkConvergence hist w limit = false)
    ∧ (∀ (hist : List ℚ) (w : ℕ) (limit : ℚ), w ≤ hist.length →
        0 < rangeOfHistory hist →
        (checkConvergence hist w limit = true ↔
          Real.sqrt ((populationVariance (lastEntries w hist) : ℝ)) /
              ((rangeOfHistory hist : ℝ)) < ((limit : ℝ))))
    ∧ checkConvergence [1000, 5002/5, 4999/5, 10001/10] 4 (1/100) = false := by
  refine ⟨?_, ?_, by
    norm_num [checkConvergence, rangeOfHistory, qmax, qmin, lastEntries,
      populationVariance, mean]⟩
  · intro hist w limit h
    unfold checkConvergence
    rw [if_pos h]
  · intro hist w limit hw hr
    have hrne : rangeOfHistory hist ≠ 0 := ne_of_gt hr
    have hrR : (0 : ℝ) < ((rangeOfHistory hist : ℝ)) := by exact_mod_cast hr
    unfold checkConvergence
    rw [if_neg (not_lt.mpr hw), if_neg hrne]
    rw [Bool.and_eq_true, decide_eq_true_iff, decide_eq_true_iff]
    constructor
    · rintro ⟨hl, hv⟩
      have hlR : (0 : ℝ) < ((limit : ℝ)) := by exact_mod_cast hl
      have hlrR : (0 : ℝ) < ((limit : ℝ)) * ((rangeOfHistory hist : ℝ)) := mul_pos hlR hrR
      rw [div_lt_iff₀ hrR]
      rw [Real.sqrt_lt' hlrR]
      exact_mod_cast hv
    · intro hdiv
      rw [div_lt_iff₀ hrR] at hdiv
      have hlrR : (0 : ℝ) < ((limit : ℝ)) * ((rangeOfHistory hist : ℝ)) :=
        lt_of_le_of_lt (Real.sqrt_nonneg _) hdiv
      have hlR : (0 : ℝ) < ((limit : ℝ)) := by
        rcases mul_pos_iff.mp hlrR with ⟨h1, -⟩ | ⟨-, h2⟩
        · exact h1
        · exact absurd hrR (not_lt.mpr (le_of_lt h2))
      have hv := (Real.sqrt_lt' hlrR).mp hdiv
      constructor
      · exact_mod_cast hlR
      · exact_mod_cast hv

/-- C4 witness: the first two parts of C4_convergence_check instantiated at
concrete histories. -/
theorem C4_convergence_check_witness :
    checkConvergence [(1 : ℚ)] 4 1 = false
    ∧ (checkConvergence [(1 : ℚ), 2] 2 1 = true ↔
        Real.sqrt ((populationVariance (lastEntries 2 [(1 : ℚ), 2]) : ℝ)) /
            ((rangeOfHistory [(1 : ℚ), 2] : ℝ)) < (((1 : ℚ) : ℝ))) :=
  ⟨C4_convergence_check.1 [(1 : ℚ)] 4 1 (by norm_num),
   C4_convergence_check.2.1 [(1 : ℚ), 2] 2 1 (by norm_num)
     (by norm_num [rangeOfHistory, qmax, qmin])⟩

/-- C5 counterexample: a history with zero range but fewer entries than the
window is reported not-converged, refuting the claim that every zero-range
history is treated as converged. -/
theorem C5_counterexample :
    rangeOfHistory [1000] = 0 ∧ checkConvergence [1000] 4 (1 / 100) = false := by
  norm_num [checkConvergence, rangeOfHistory, qmax, qmin]

/-- C5 (amended): for a history of at least windowSize entries whose whole
range is zero, the check reports converged; and whenever the range is zero
the result does not depend on the limit, the normalized comparison (the only
place the range is a divisor) being guarded by a range-is-nonzero test. -/
theorem C5_zero_range (hist : List ℚ) (w : ℕ) (limit limit' : ℚ)
    (hw : w ≤ hist.length) (hr : rangeOfHistory hist = 0) :
    checkConvergence hist w limit = true
    ∧ checkConvergence hist w limit = checkConvergence hist w limit' := by
  have h1 : ∀ l : ℚ, checkConvergence hist w l = true := by
    intro l
    unfold checkConvergence
    rw [if_neg (not_lt.mpr hw), if_pos hr]
  exact ⟨h1 limit, by rw [h1 limit, h1 limit']⟩

/-- C5 witness: the amended statement instantiated at the constant history
[5, 5] with window 2. -/
theorem C5_zero_range_witness :
    checkConvergence [(5 : ℚ), 5] 2 1 = true
    ∧ checkConvergence [(5 : ℚ), 5] 2 1 = checkConvergence [(5 : ℚ), 5] 2 2 :=
  C5_zero_range [(5 : ℚ), 5] 2 1 2 (by norm_num)
    (by norm_num [rangeOfHistory, qmax, qmin])

/-- Model of the intrinsics-related member data of LocalBA_Data:
_intrinsicsHistory (header line 240, keeping only the focal lengths) and
_mapIntrinsicIsConstant (header line 244), both as association lists. -/
structure IntrinsicsData where
  intrinsicsHistory : List (ℕ × List ℚ)
  mapIntrinsicIsConstant : List (ℕ × Bool)
deriving DecidableEq, Repr

/-- Append a focal-length sample to one intrinsic's history (creating the
history if absent). -/
def appendHistory (h : List (ℕ × List ℚ)) (intrinsicId : ℕ) (focal : ℚ) :
    List (ℕ × List ℚ) :=
  match h with
  | [] => [(intrinsicId, [focal])]
  | (k, v) :: rest =>
    if k = intrinsicId then (k, v ++ [focal]) :: rest
    else (k, v) :: appendHistory rest intrinsicId focal

/-- Modelled from the spec: the body of addIntrinsicsToHistory (declared at
header line 94) is not in the sampled source.  Per spec section 4.4 it
appends the current focal length of each intrinsic to its history; modelled
for a single intrinsic. -/
def addIntrinsicsToHistory (d : IntrinsicsData) (intrinsicId : ℕ) (focal : ℚ) :
    IntrinsicsData :=
  IntrinsicsData.mk (appendHistory d.intrinsicsHistory intrinsicId focal)
    d.mapIntrinsicIsConstant

/-- Modelled from the spec: the body of checkIntrinsicsConsistency (declared
at header line 156) is not in the sampled source.  Per spec section 4.4 it
runs the convergence check on every intrinsic and sets the sticky frozen
flag of the converged ones; a flag already set stays set (the check
short-circuits to true). -/
def checkIntrinsicsConsistency (d : IntrinsicsData) (windowSize : ℕ)
    (stdevPercentageLimit : ℚ) : IntrinsicsData :=
  IntrinsicsData.mk d.intrinsicsHistory
    (d.mapIntrinsicIsConstant.map (fun p =>
      (p.1, p.2 || checkConvergence ((d.intrinsicsHistory.lookup p.1).getD [])
        windowSize stdevPercentageLimit)))

/-- isIntrinsicConstant (header line 180): returns
_mapIntrinsicIsConstant.at(intrinsicId). -/
def isIntrinsicConstant (d : IntrinsicsData) (intrinsicId : ℕ) : Except Unit Bool :=
  mapAt d.mapIntrinsicIsConstant intrinsicId

/-- The operations of a run that touch the intrinsics data: recording a
focal-length snapshot, or a convergence-check pass. -/
inductive IntrinsicsOp
  | snapshot (intrinsicId : ℕ) (focal : ℚ)
  | check (windowSize : ℕ) (stdevPercentageLimit : ℚ)
deriving Repr

/-- One step of a run. -/
def applyIntrinsicsOp (d : IntrinsicsData) : IntrinsicsOp → IntrinsicsData
  | IntrinsicsOp.snapshot id f => addIntrinsicsToHistory d id f
  | IntrinsicsOp.check w l => checkIntrinsicsConsistency d w l

/-- A whole run: the operations applied in order. -/
def runIntrinsicsOps (d : IntrinsicsData) (ops : List IntrinsicsOp) : IntrinsicsData :=
  ops.foldl applyIntrinsicsOp d

theorem lookup_map_keep {α β : Type} (l : List (ℕ × α)) (f : ℕ → α → β) (k : ℕ) :
    (l.map (fun p => (p.1, f p.1 p.2))).lookup k = (l.lookup k).map (f k) := by
  induction l with
  | nil => rfl
  | cons p rest ih =>
    by_cases h : k = p.1
    · simp [List.lookup, h]
    · simp [List.lookup, h, ih, beq_false_of_ne h]

theorem frozen_step (d : IntrinsicsData) (op : IntrinsicsOp) (id : ℕ)
    (h : d.mapIntrinsicIsConstant.lookup id = some true) :
    (applyIntrinsicsOp d op).mapIntrinsicIsConstant.lookup id = some true := by
  cases op with
  | snapshot i f => exact h
  | check w l =>
    show ((d.mapIntrinsicIsConstant.map (fun p =>
      (p.1, p.2 || checkConvergence ((d.intrinsicsHistory.lookup p.1).getD [])
        w l))).lookup id) = some true
    rw [lookup_map_keep d.mapIntrinsicIsConstant
      (fun k b => b || checkConvergence ((d.intrinsicsHistory.lookup k).getD []) w l) id, h]
    rfl

/-- C6: the frozen flag is monotonic: once an intrinsic's flag is set, no
later sequence of snapshot or convergence-check operations resets it, and
every later convergence query (isIntrinsicConstant) answers true. -/
theorem C6_frozen_flag_monotonic (d : IntrinsicsData) (ops : List IntrinsicsOp) (id : ℕ)
    (h : d.mapIntrinsicIsConstant.lookup id = some true) :
    (runIntrinsicsOps d ops).mapIntrinsicIsConstant.lookup id = some true
    ∧ isIntrinsicConstant (runIntrinsicsOps d ops) id = Except.ok true := by
  have hrun : (runIntrinsicsOps d ops).mapIntrinsicIsConstant.lookup id = some true := by
    induction ops generalizing d with
    | nil => exact h
    | cons op rest ih =>
      show (runIntrinsicsOps (applyIntrinsicsOp d op) rest).mapIntrinsicIsConstant.lookup id
        = some true
      exact ih (applyIntrinsicsOp d op) (frozen_step d op id h)
  refine ⟨hrun, ?_⟩
  unfold isIntrinsicConstant mapAt
  rw [hrun]

/-- C6 witness: a frozen intrinsic stays frozen across a snapshot and a
convergence-check pass. -/
theorem C6_frozen_flag_monotonic_witness :
    (runIntrinsicsOps (IntrinsicsData.mk [(0, [(1 : ℚ)])] [(0, true)])
        [IntrinsicsOp.snapshot 0 2, IntrinsicsOp.check 4 1]).mapIntrinsicIsConstant.lookup 0
      = some true
    ∧ isIntrinsicConstant (runIntrinsicsOps (IntrinsicsData.mk [(0, [(1 : ℚ)])] [(0, true)])
        [IntrinsicsOp.snapshot 0 2, IntrinsicsOp.check 4 1]) 0 = Except.ok true :=
  C6_frozen_flag_monotonic (IntrinsicsData.mk [(0, [(1 : ℚ)])] [(0, true)])
    [IntrinsicsOp.snapshot 0 2, IntrinsicsOp.check 4 1] 0 rfl

/-- Model of the lemon::ListGraph _graph of LocalBA_Data (header line 200)
together with _intrinsicEdgesId (header line 205): nodes are view ids (the
two-way node-id maps of header lines 203-204 collapse to the ids), edges
carry the lemon edge id and their two endpoints, nextEdgeId is the next
fresh edge id, and intrinsicEdgesId records the ids of the live intrinsic
coupling edges. -/
structure BAGraph where
  nodes : List ℕ
  edges : List (ℕ × ℕ × ℕ)
  nextEdgeId : ℕ
  intrinsicEdgesId : List ℕ
deriving DecidableEq, Repr

/-- Whether the (undirected) graph has an edge joining u and v. -/
def hasEdge (g : BAGraph) (u v : ℕ) : Bool :=
  g.edges.any (fun e => decide ((e.2.1 = u ∧ e.2.2 = v) ∨ (e.2.1 = v ∧ e.2.2 = u)))

/-- The fixed threshold _kMinNbOfMatches (header line 197): minimum number
of shared landmarks for two views to be connected in the graph. -/
def kMinNbOfMatches : ℕ := 100

/-- Insert a node for a view if absent; no-op when the view already has a
node (spec section 4.1, addView). -/
def addNode (g : BAGraph) (v : ℕ) : BAGraph :=
  if v ∈ g.nodes then g
  else BAGraph.mk (g.nodes ++ [v]) g.edges g.nextEdgeId g.intrinsicEdgesId

/-- Modelled from the spec: the body of updateGraphWithNewViews (declared at
header lines 109-111) is not in the sampled source.  Per spec section 4.1,
for one processed pair of views with their shared-landmark count: the two
views get nodes, and a match edge is inserted when the pair is not yet
connected and the count reaches kMinNbOfMatches (a self pair is a defensive
no-op). -/
def processMatchPair (g : BAGraph) (u v : ℕ) (sharedCount : ℕ) : BAGraph :=
  let g1 := addNode (addNode g u) v
  if kMinNbOfMatches ≤ sharedCount ∧ u ≠ v ∧ hasEdge g1 u v = false then
    BAGraph.mk g1.nodes (g1.edges ++ [(g1.nextEdgeId, u, v)]) (g1.nextEdgeId + 1)
      g1.intrinsicEdgesId
  else g1

/-- Modelled from the spec: the full graph update folds processMatchPair
over the shared-landmark counts of all view pairs. -/
def updateGraphWithNewViews (g : BAGraph) (counts : List ((ℕ × ℕ) × ℕ)) : BAGraph :=
  counts.foldl (fun gr p => processMatchPair gr p.1.1 p.1.2 p.2) g

theorem hasEdge_addNode (g : BAGraph) (w u v : ℕ) :
    hasEdge (addNode g w) u v = hasEdge g u v := by
  unfold addNode hasEdge
  by_cases h : w ∈ g.nodes
  · rw [if_pos h]
  · rw [if_neg h]

/-- C7: a processed pair of views ends up connected by a match edge exactly
when it was already connected or its shared-landmark count is at least the
threshold; processing a pair that is already connected (both views having
nodes) is a no-op; and the threshold is the fixed constant 100. -/
theorem C7_match_edge_threshold (g : BAGraph) (u v : ℕ) (c : ℕ) (huv : u ≠ v) :
    (hasEdge (processMatchPair g u v c) u v = true ↔
      (hasEdge g u v = true ∨ kMinNbOfMatches ≤ c))
    ∧ (u ∈ g.nodes → v ∈ g.nodes → hasEdge g u v = true → processMatchPair g u v c = g)
    ∧ kMinNbOfMatches = 100 := by
  refine ⟨?_, ?_, rfl⟩
  · unfold processMatchPair
    have he1 : hasEdge (addNode (addNode g u) v) u v = hasEdge g u v := by
      rw [hasEdge_addNode, hasEdge_addNode]
    by_cases hc : kMinNbOfMatches ≤ c ∧ u ≠ v ∧ hasEdge (addNode (addNode g u) v) u v = false
    · rw [if_pos hc]
      constructor
      · intro _
        exact Or.inr hc.1
      · intro _
        unfold hasEdge
        rw [List.any_append]
        apply Bool.or_eq_true_iff.mpr
        right
        simp
    · rw [if_neg hc]
      rw [he1]
      constructor
      · intro h
        exact Or.inl h
      · intro h
        rcases h with h | h
        · exact h
        · rcases Bool.eq_false_or_eq_true (hasEdge g u v) with ht | hf
          · exact ht
          · exact absurd ⟨h, huv, by rw [he1]; exact hf⟩ hc
  · intro hu hv he
    have hgu : addNode g u = g := by unfold addNode; rw [if_pos hu]
    have hgv : addNode g v = g := by unfold addNode; rw [if_pos hv]
    unfold processMatchPair
    rw [hgu, hgv]
    rw [if_neg]
    intro hcon
    rw [he] at hcon
    exact Bool.true_eq_false ▸ hcon.2.2

/-- C7 witness: an unconnected pair with count 100 gets an edge, one with
count 99 does not, and re-processing a connected pair changes nothing. -/
theorem C7_match_edge_threshold_witness :
    (hasEdge (processMatchPair (BAGraph.mk [1, 2] [] 0 []) 1 2 100) 1 2 = true ↔
      (hasEdge (BAGraph.mk [1, 2] [] 0 []) 1 2 = true ∨ kMinNbOfMatches ≤ 100))
    ∧ (1 ∈ (BAGraph.mk [1, 2] [(0, 1, 2)] 1 []).nodes →
        2 ∈ (BAGraph.mk [1, 2] [(0, 1, 2)] 1 []).nodes →
        hasEdge (BAGraph.mk [1, 2] [(0, 1, 2)] 1 []) 1 2 = true →
        processMatchPair (BAGraph.mk [1, 2] [(0, 1, 2)] 1 []) 1 2 150 =
          BAGraph.mk [1, 2] [(0, 1, 2)] 1 [])
    ∧ kMinNbOfMatches = 100 :=
  ⟨(C7_match_edge_threshold (BAGraph.mk [1, 2] [] 0 []) 1 2 100 (by decide)).1,
   (C7_match_edge_threshold (BAGraph.mk [1, 2] [(0, 1, 2)] 1 []) 1 2 150 (by decide)).2.1,
   rfl⟩

/-- Delete one view's node and all incident edges (header line 116: "It
delete the node and all the incident arcs for each removed view"). -/
def removeNode (g : BAGraph) (v : ℕ) : BAGraph :=
  BAGraph.mk (g.nodes.filter (fun x => decide (x ≠ v)))
    (g.edges.filter (fun e => decide (e.2.1 ≠ v ∧ e.2.2 ≠ v)))
    g.nextEdgeId g.intrinsicEdgesId

/-- Process the requested ids in order: remove the node and incident edges
of each id that has a node, counting the removals; ids without a node are
skipped. -/
def removeViewsAux (g : BAGraph) : List ℕ → BAGraph × ℕ
  | [] => (g, 0)
  | v :: rest =>
    if v ∈ g.nodes then
      ((removeViewsAux (removeNode g v) rest).1, (removeViewsAux (removeNode g v) rest).2 + 1)
    else removeViewsAux g rest

/-- Modelled from the spec: the body of removeViewsToTheGraph (declared at
header line 119) is not in the sampled source; per its header documentation
(lines 116-118) it removes the node and all incident arcs of each removed
view and returns true iff the number of removed nodes equals the size of
removedViewsId. -/
def removeViewsToTheGraph (g : BAGraph) (removedViewsId : List ℕ) : BAGraph × Bool :=
  ((removeViewsAux g removedViewsId).1,
   decide ((removeViewsAux g removedViewsId).2 = removedViewsId.length))

/-- Well-formed graph: every edge joins two existing nodes (lemon graphs
only hold edges between live nodes). -/
def edgesWF (g : BAGraph) : Prop :=
  ∀ e ∈ g.edges, e.2.1 ∈ g.nodes ∧ e.2.2 ∈ g.nodes

theorem removeNode_wf (g : BAGraph) (v : ℕ) (h : edgesWF g) : edgesWF (removeNode g v) := by
  intro e he
  unfold removeNode at he
  simp only [List.mem_filter, decide_eq_true_iff] at he
  obtain ⟨hmem, hne⟩ := he
  obtain ⟨h1, h2⟩ := h e hmem
  constructor <;> simp only [removeNode, List.mem_filter, decide_eq_true_iff]
  · exact ⟨h1, hne.1⟩
  · exact ⟨h2, hne.2⟩

theorem length_filter_eq_iff {α : Type} (s : List α) (p : α → Bool) :
    (s.filter p).length = s.length ↔ ∀ a ∈ s, p a = true := by
  constructor
  · intro h
    have hs : s.filter p = s := (List.filter_sublist s).eq_of_length h
    intro a ha
    rw [← hs] at ha
    exact (List.mem_filter.mp ha).2
  · intro h
    rw [List.filter_eq_self.mpr h]

theorem removeViewsAux_spec (s : List ℕ) (g : BAGraph) (hwf : edgesWF g) (hnd : s.Nodup) :
    (removeViewsAux g s).1.nodes = g.nodes.filter (fun x => decide (x ∉ s))
    ∧ (removeViewsAux g s).1.edges =
        g.edges.filter (fun e => decide (e.2.1 ∉ s ∧ e.2.2 ∉ s))
    ∧ (removeViewsAux g s).2 = (s.filter (fun v => decide (v ∈ g.nodes))).length := by
  induction s generalizing g with
  | nil =>
    refine ⟨?_, ?_, rfl⟩
    · exact (List.filter_eq_self.mpr (fun x _ => by simp)).symm
    · exact (List.filter_eq_self.mpr (fun e _ => by simp)).symm
  | cons v rest ih =>
    rcases List.nodup_cons.mp hnd with ⟨hv, hndrest⟩
    by_cases hmem : v ∈ g.nodes
    · have hwf' := removeNode_wf g v hwf
      obtain ⟨hn, he, hc⟩ := ih (removeNode g v) hwf' hndrest
      simp only [removeViewsAux, if_pos hmem]
      refine ⟨?_, ?_, ?_⟩
      · rw [hn]
        show ((g.nodes.filter (fun x => decide (x ≠ v))).filter
          (fun x => decide (x ∉ rest))) = _
        rw [List.filter_filter]
        apply List.filter_congr
        intro x hx
        by_cases h1 : x = v <;> by_cases h2 : x ∈ rest <;> simp [h1, h2]
      · rw [he]
        show ((g.edges.filter (fun e => decide (e.2.1 ≠ v ∧ e.2.2 ≠ v))).filter
          (fun e => decide (e.2.1 ∉ rest ∧ e.2.2 ∉ rest))) = _
        rw [List.filter_filter]
        apply List.filter_congr
        intro e he
        by_cases h1 : e.2.1 = v <;> by_cases h2 : e.2.2 = v <;>
          by_cases h3 : e.2.1 ∈ rest <;> by_cases h4 : e.2.2 ∈ rest <;>
          simp [h1, h2, h3, h4]
      · rw [hc]
        have hfl : rest.filter (fun x => decide (x ∈ (removeNode g v).nodes)) =
            rest.filter (fun x => decide (x ∈ g.nodes)) := by
          apply List.filter_congr
          intro x hx
          have hxv : x ≠ v := fun hxv => hv (hxv ▸ hx)
          simp [removeNode, List.mem_filter, hxv]
        rw [hfl]
        have : (v :: rest).filter (fun x => decide (x ∈ g.nodes)) =
            v :: rest.filter (fun x => decide (x ∈ g.nodes)) := by
          rw [List.filter_cons_of_pos]
          simpa using hmem
        rw [this, List.length_cons]
    · obtain ⟨hn, he, hc⟩ := ih g hwf hndrest
      simp only [removeViewsAux, if_neg hmem]
      refine ⟨?_, ?_, ?_⟩
      · rw [hn]
        apply List.filter_congr
        intro x hx
        have hxv : x ≠ v := fun hxv => hmem (hxv ▸ hx)
        by_cases h2 : x ∈ rest <;> simp [hxv, h2]
      · rw [he]
        apply List.filter_congr
        intro e hee
        obtain ⟨h1, h2⟩ := hwf e hee
        have h1v : e.2.1 ≠ v := fun hx => hmem (hx ▸ h1)
        have h2v : e.2.2 ≠ v := fun hx => hmem (hx ▸ h2)
        by_cases h3 : e.2.1 ∈ rest <;> by_cases h4 : e.2.2 ∈ rest <;>
          simp [h1v, h2v, h3, h4]
      · rw [hc]
        have : (v :: rest).filter (fun x => decide (x ∈ g.nodes)) =
            rest.filter (fun x => decide (x ∈ g.nodes)) := by
          rw [List.filter_cons_of_neg]
          simpa using hmem
        rw [this]

/-- C8: for a duplicate-free request set over a well-formed graph, view
removal deletes exactly the requested nodes and every incident edge, and
returns true exactly when every requested id had a node in the graph (a
partial failure yields false). -/
theorem C8_remove_views (g : BAGraph) (s : List ℕ) (hwf : edgesWF g) (hnd : s.Nodup) :
    (removeViewsToTheGraph g s).1.nodes = g.nodes.filter (fun x => decide (x ∉ s))
    ∧ (removeViewsToTheGraph g s).1.edges =
        g.edges.filter (fun e => decide (e.2.1 ∉ s ∧ e.2.2 ∉ s))
    ∧ ((removeViewsToTheGraph g s).2 = true ↔ ∀ v ∈ s, v ∈ g.nodes) := by
  obtain ⟨hn, he, hc⟩ := removeViewsAux_spec s g hwf hnd
  refine ⟨hn, he, ?_⟩
  show decide ((removeViewsAux g s).2 = s.length) = true ↔ _
  rw [decide_eq_true_iff, hc, length_filter_eq_iff]
  simp only [decide_eq_true_iff]

/-- C8 witness: removing views 2 and 3 from the graph on nodes 1, 2, 3 with
the single edge 1-2 removes both nodes, drops the edge, and reports
success; the report form also shows a missing id yields false via the same
equivalence. -/
theorem C8_remove_views_witness :
    (removeViewsToTheGraph (BAGraph.mk [1, 2, 3] [(0, 1, 2)] 1 []) [2, 3]).1.nodes =
        (BAGraph.mk [1, 2, 3] [(0, 1, 2)] 1 []).nodes.filter (fun x => decide (x ∉ [2, 3]))
    ∧ (removeViewsToTheGraph (BAGraph.mk [1, 2, 3] [(0, 1, 2)] 1 []) [2, 3]).1.edges =
        (BAGraph.mk [1, 2, 3] [(0, 1, 2)] 1 []).edges.filter
          (fun e => decide (e.2.1 ∉ [2, 3] ∧ e.2.2 ∉ [2, 3]))
    ∧ ((removeViewsToTheGraph (BAGraph.mk [1, 2, 3] [(0, 1, 2)] 1 []) [2, 3]).2 = true ↔
        ∀ v ∈ [2, 3], v ∈ (BAGraph.mk [1, 2, 3] [(0, 1, 2)] 1 []).nodes) :=
  C8_remove_views (BAGraph.mk [1, 2, 3] [(0, 1, 2)] 1 []) [2, 3] (by unfold edgesWF; decide) (by decide)

/-- Insert one intrinsic coupling edge between u and v unless the pair is
already connected or u equals v (a self pair is a defensive no-op per spec
section 7); the fresh edge id is recorded in intrinsicEdgesId (header line
205). -/
def addCouplingEdge (g : BAGraph) (u v : ℕ) : BAGraph :=
  if u ≠ v ∧ hasEdge g u v = false then
    BAGraph.mk g.nodes (g.edges ++ [(g.nextEdgeId, u, v)]) (g.nextEdgeId + 1)
      (g.intrinsicEdgesId ++ [g.nextEdgeId])
  else g

/-- All unordered pairs of a list of views. -/
def allPairs : List ℕ → List (ℕ × ℕ)
  | [] => []
  | x :: rest => rest.map (fun y => (x, y)) ++ allPairs rest

/-- Modelled from the spec: the body of addIntrinsicEdgesToTheGraph
(declared at header line 96) is not in the sampled source.  Per spec section
4.1 it connects, for each intrinsic, every pair of views sharing that
intrinsic with a temporary coupling edge, skipping pairs already connected,
and records the added edge ids in _intrinsicEdgesId. -/
def addIntrinsicEdgesToTheGraph (g : BAGraph) (viewsPerIntrinsic : List (List ℕ)) :
    BAGraph :=
  ((viewsPerIntrinsic.map allPairs).flatten).foldl (fun gr p => addCouplingEdge gr p.1 p.2) g

/-- Modelled from the spec: the body of removeIntrinsicEdgesToTheGraph
(declared at header line 98) is not in the sampled source.  Per spec section
4.1 it removes exactly the edges whose ids were recorded in
_intrinsicEdgesId (header line 205, "indexed by Edge id") and clears that
record. -/
def removeIntrinsicEdgesToTheGraph (g : BAGraph) : BAGraph :=
  BAGraph.mk g.nodes (g.edges.filter (fun e => decide (e.1 ∉ g.intrinsicEdgesId)))
    g.nextEdgeId []

theorem addCoupling_fold_spec (ps : List (ℕ × ℕ)) (g : BAGraph)
    (hids : ∀ e ∈ g.edges, e.1 < g.nextEdgeId) :
    ∃ added : List (ℕ × ℕ × ℕ),
      (ps.foldl (fun gr p => addCouplingEdge gr p.1 p.2) g).nodes = g.nodes
      ∧ (ps.foldl (fun gr p => addCouplingEdge gr p.1 p.2) g).edges = g.edges ++ added
      ∧ (ps.foldl (fun gr p => addCouplingEdge gr p.1 p.2) g).intrinsicEdgesId
          = g.intrinsicEdgesId ++ added.map (fun e => e.1)
      ∧ (∀ e ∈ added, g.nextEdgeId ≤ e.1) := by
  induction ps generalizing g with
  | nil => exact ⟨[], rfl, by simp, by simp, by simp⟩
  | cons p rest ih =>
    simp only [List.foldl_cons]
    by_cases hcond : p.1 ≠ p.2 ∧ hasEdge g p.1 p.2 = false
    · have hstep : addCouplingEdge g p.1 p.2 =
          BAGraph.mk g.nodes (g.edges ++ [(g.nextEdgeId, p.1, p.2)]) (g.nextEdgeId + 1)
            (g.intrinsicEdgesId ++ [g.nextEdgeId]) := by
        unfold addCouplingEdge
        rw [if_pos hcond]
      have hids' : ∀ e ∈ (addCouplingEdge g p.1 p.2).edges,
          e.1 < (addCouplingEdge g p.1 p.2).nextEdgeId := by
        rw [hstep]
        intro e he
        rcases List.mem_append.mp he with h | h
        · exact Nat.lt_trans (hids e h) (Nat.lt_succ_self _)
        · have he1 : e = (g.nextEdgeId, p.1, p.2) := by simpa using h
          rw [he1]
          exact Nat.lt_succ_self _
      obtain ⟨added, hn, he, hi, hge⟩ := ih (addCouplingEdge g p.1 p.2) hids'
      refine ⟨(g.nextEdgeId, p.1, p.2) :: added, ?_, ?_, ?_, ?_⟩
      · rw [hn, hstep]
      · rw [he, hstep]
        simp
      · rw [hi, hstep]
        simp
      · intro e he2
        rcases List.mem_cons.mp he2 with h | h
        · rw [h]
        · have := hge e h
          rw [hstep] at this
          exact Nat.le_of_lt (Nat.lt_of_lt_of_le (Nat.lt_succ_self _) this)
    · have hstep : addCouplingEdge g p.1 p.2 = g := by
        unfold addCouplingEdge
        rw [if_neg hcond]
      rw [hstep]
      exact ih g hids

theorem addIntrinsic_spec (g : BAGraph) (vpi : List (List ℕ))
    (hids : ∀ e ∈ g.edges, e.1 < g.nextEdgeId) :
    ∃ added : List (ℕ × ℕ × ℕ),
      (addIntrinsicEdgesToTheGraph g vpi).nodes = g.nodes
      ∧ (addIntrinsicEdgesToTheGraph g vpi).edges = g.edges ++ added
      ∧ (addIntrinsicEdgesToTheGraph g vpi).intrinsicEdgesId
          = g.intrinsicEdgesId ++ added.map (fun e => e.1)
      ∧ (∀ e ∈ added, g.nextEdgeId ≤ e.1) :=
  addCoupling_fold_spec ((vpi.map allPairs).flatten) g hids

theorem remove_on_clean (g : BAGraph) (hclean : g.intrinsicEdgesId = []) :
    removeIntrinsicEdgesToTheGraph g = g := by
  cases g with
  | mk n e i ids =>
    simp only at hclean
    subst hclean
    unfold removeIntrinsicEdgesToTheGraph
    simp only
    congr 1
    apply List.filter_eq_self.mpr
    intro e he
    simp

/-- C2: starting from a graph with no live coupling edges (clean record) and
well-formed edge ids, removing the intrinsic coupling edges right after
adding them restores the edge list, the nodes and the empty record exactly;
the removal is idempotent, and on a graph with no coupling edges it is the
identity. -/
theorem C2_coupling_roundtrip (g : BAGraph) (vpi : List (List ℕ))
    (hids : ∀ e ∈ g.edges, e.1 < g.nextEdgeId)
    (hclean : g.intrinsicEdgesId = []) :
    (removeIntrinsicEdgesToTheGraph (addIntrinsicEdgesToTheGraph g vpi)).edges = g.edges
    ∧ (removeIntrinsicEdgesToTheGraph (addIntrinsicEdgesToTheGraph g vpi)).nodes = g.nodes
    ∧ (removeIntrinsicEdgesToTheGraph
        (addIntrinsicEdgesToTheGraph g vpi)).intrinsicEdgesId = []
    ∧ removeIntrinsicEdgesToTheGraph (removeIntrinsicEdgesToTheGraph
        (addIntrinsicEdgesToTheGraph g vpi))
      = removeIntrinsicEdgesToTheGraph (addIntrinsicEdgesToTheGraph g vpi)
    ∧ removeIntrinsicEdgesToTheGraph g = g := by
  obtain ⟨added, hn, he, hi, hge⟩ := addIntrinsic_spec g vpi hids
  have hi2 : (addIntrinsicEdgesToTheGraph g vpi).intrinsicEdgesId =
      added.map (fun e => e.1) := by
    rw [hi, hclean]
    rfl
  have hedg : (removeIntrinsicEdgesToTheGraph (addIntrinsicEdgesToTheGraph g vpi)).edges
      = g.edges := by
    show ((addIntrinsicEdgesToTheGraph g vpi).edges.filter
      (fun e => decide (e.1 ∉ (addIntrinsicEdgesToTheGraph g vpi).intrinsicEdgesId))) = _
    rw [hi2, he, List.filter_append]
    have h1 : g.edges.filter (fun e => decide (e.1 ∉ added.map (fun e => e.1)))
        = g.edges := by
      apply List.filter_eq_self.mpr
      intro e hee
      simp only [decide_eq_true_iff, List.mem_map]
      rintro ⟨a, ha, haeq⟩
      have h3 := hge a ha
      rw [haeq] at h3
      exact absurd (hids e hee) (Nat.not_lt.mpr h3)
    have h2 : added.filter (fun e => decide (e.1 ∉ added.map (fun e => e.1))) = [] := by
      rw [List.filter_eq_nil_iff]
      intro e hee
      simp only [decide_eq_true_iff, not_not]
      exact List.mem_map.mpr ⟨e, hee, rfl⟩
    rw [h1, h2, List.append_nil]
  refine ⟨hedg, ?_, rfl, ?_, remove_on_clean g hclean⟩
  · show (addIntrinsicEdgesToTheGraph g vpi).nodes = g.nodes
    exact hn
  · apply remove_on_clean
    rfl

/-- C2 witness: the round trip on the graph with nodes 1, 2, 3, the single
match edge 1-2, and one intrinsic shared by all three views. -/
theorem C2_coupling_roundtrip_witness :
    (removeIntrinsicEdgesToTheGraph (addIntrinsicEdgesToTheGraph
        (BAGraph.mk [1, 2, 3] [(0, 1, 2)] 1 []) [[1, 2, 3]])).edges =
      (BAGraph.mk [1, 2, 3] [(0, 1, 2)] 1 []).edges
    ∧ (removeIntrinsicEdgesToTheGraph (addIntrinsicEdgesToTheGraph
        (BAGraph.mk [1, 2, 3] [(0, 1, 2)] 1 []) [[1, 2, 3]])).nodes =
      (BAGraph.mk [1, 2, 3] [(0, 1, 2)] 1 []).nodes
    ∧ (removeIntrinsicEdgesToTheGraph (addIntrinsicEdgesToTheGraph
        (BAGraph.mk [1, 2, 3] [(0, 1, 2)] 1 []) [[1, 2, 3]])).intrinsicEdgesId = []
    ∧ removeIntrinsicEdgesToTheGraph (removeIntrinsicEdgesToTheGraph
        (addIntrinsicEdgesToTheGraph (BAGraph.mk [1, 2, 3] [(0, 1, 2)] 1 []) [[1, 2, 3]]))
      = removeIntrinsicEdgesToTheGraph (addIntrinsicEdgesToTheGraph
        (BAGraph.mk [1, 2, 3] [(0, 1, 2)] 1 []) [[1, 2, 3]])
    ∧ removeIntrinsicEdgesToTheGraph (BAGraph.mk [1, 2, 3] [(0, 1, 2)] 1 []) =
      BAGraph.mk [1, 2, 3] [(0, 1, 2)] 1 [] :=
  C2_coupling_roundtrip (BAGraph.mk [1, 2, 3] [(0, 1, 2)] 1 []) [[1, 2, 3]]
    (by decide) rfl

/-- The multi-source BFS visited set: reachSet g F n holds the nodes visited
within n BFS rounds from the frontier F (round 0 visits the frontier nodes
present in the graph; each following round adds the neighbors of the
visited set). -/
def reachSet (g : BAGraph) (F : List ℕ) : ℕ → List ℕ
  | 0 => g.nodes.filter (fun v => decide (v ∈ F))
  | n + 1 => g.nodes.filter (fun v =>
      decide (v ∈ reachSet g F n ∨ ∃ u ∈ reachSet g F n, hasEdge g u v = true))

/-- The first BFS round among n, n+1, ... (with the given fuel) that visits
v, if any. -/
def firstReachAux (g : BAGraph) (F : List ℕ) (v : ℕ) : ℕ → ℕ → Option ℕ
  | 0, _ => none
  | fuel + 1, n =>
    if v ∈ reachSet g F n then some n else firstReachAux g F v fuel (n + 1)

/-- Modelled from the spec: the body of computeDistancesMaps (declared at
header lines 121-123) is not in the sampled source.  Per the header
documentation and spec section 4.2 it runs a multi-source breadth-first
search seeded at the frontier views: a node's distance is the first BFS
round that visits it (0 for frontier nodes, one more per hop), and the
sentinel -1 marks nodes not connected to the frontier (header lines
211-214).  nodes.length + 1 rounds are enough for the BFS to saturate. -/
def computeDistancesMaps (g : BAGraph) (F : List ℕ) (v : ℕ) : Int :=
  match firstReachAux g F v (g.nodes.length + 1) 0 with
  | some n => (n : Int)
  | none => -1

/-- A walk of exactly n hops in the graph from some frontier node of F to
v (every visited node being a node of the graph). -/
inductive HasWalk (g : BAGraph) (F : List ℕ) : ℕ → ℕ → Prop
  | base (v : ℕ) : v ∈ F → v ∈ g.nodes → HasWalk g F 0 v
  | step (n u v : ℕ) : HasWalk g F n u → hasEdge g u v = true → v ∈ g.nodes →
      HasWalk g F (n + 1) v

theorem mem_reachSet_nodes (g : BAGraph) (F : List ℕ) (n v : ℕ)
    (h : v ∈ reachSet g F n) : v ∈ g.nodes := by
  cases n with
  | zero => exact (List.mem_filter.mp h).1
  | succ m => exact (List.mem_filter.mp h).1

theorem mem_reachSet_iff (g : BAGraph) (F : List ℕ) (n v : ℕ) :
    v ∈ reachSet g F n ↔ ∃ k, k ≤ n ∧ HasWalk g F k v := by
  induction n generalizing v with
  | zero =>
    constructor
    · intro h
      obtain ⟨hn, hf⟩ := List.mem_filter.mp h
      exact ⟨0, Nat.le_refl 0, HasWalk.base v (by simpa using hf) hn⟩
    · rintro ⟨k, hk, w⟩
      rw [Nat.le_zero.mp hk] at w
      cases w with
      | base _ hf hn =>
        exact List.mem_filter.mpr ⟨hn, by simpa using hf⟩
  | succ m ih =>
    constructor
    · intro h
      obtain ⟨hn, hd⟩ := List.mem_filter.mp h
      rcases decide_eq_true_iff.mp hd with hprev | ⟨u, hu, hedge⟩
      · obtain ⟨k, hk, w⟩ := (ih v).mp hprev
        exact ⟨k, Nat.le_succ_of_le hk, w⟩
      · obtain ⟨k, hk, w⟩ := (ih u).mp hu
        exact ⟨k + 1, Nat.succ_le_succ hk, HasWalk.step k u v w hedge hn⟩
    · rintro ⟨k, hk, w⟩
      rcases Nat.lt_or_ge k (m + 1) with hlt | hge
      · have hmem : v ∈ reachSet g F m := (ih v).mpr ⟨k, Nat.lt_succ_iff.mp hlt, w⟩
        refine List.mem_filter.mpr ⟨mem_reachSet_nodes g F m v hmem, ?_⟩
        simp only [decide_eq_true_iff]
        exact Or.inl hmem
      · have hkeq : k = m + 1 := Nat.le_antisymm hk hge
        rw [hkeq] at w
        cases w with
        | step _ u _ wu hedge hn =>
          refine List.mem_filter.mpr ⟨hn, ?_⟩
          simp only [decide_eq_true_iff]
          exact Or.inr ⟨u, (ih u).mpr ⟨m, Nat.le_refl m, wu⟩, hedge⟩

theorem mem_reachSet_mono (g : BAGraph) (F : List ℕ) (k m v : ℕ) (hkm : k ≤ m)
    (h : v ∈ reachSet g F k) : v ∈ reachSet g F m := by
  obtain ⟨j, hj, w⟩ := (mem_reachSet_iff g F k v).mp h
  exact (mem_reachSet_iff g F m v).mpr ⟨j, Nat.le_trans hj hkm, w⟩

theorem filter_sublist_mono {α : Type} (l : List α) (p q : α → Bool)
    (h : ∀ a ∈ l, p a = true → q a = true) : List.Sublist (l.filter p) (l.filter q) := by
  induction l with
  | nil => simp
  | cons x rest ih =>
    have ih2 := ih (fun a ha hp => h a (List.mem_cons_of_mem x ha) hp)
    by_cases hp : p x = true
    · rw [List.filter_cons_of_pos hp,
        List.filter_cons_of_pos (h x (List.mem_cons_self x rest) hp)]
      exact ih2.cons₂ x
    · rw [List.filter_cons_of_neg (by simpa using hp)]
      by_cases hq : q x = true
      · rw [List.filter_cons_of_pos hq]
        exact ih2.cons x
      · rw [List.filter_cons_of_neg (by simpa using hq)]
        exact ih2

theorem reachSet_sublist_succ (g : BAGraph) (F : List ℕ) (n : ℕ) :
    List.Sublist (reachSet g F n) (reachSet g F (n + 1)) := by
  have hrepr : ∃ p, reachSet g F n = g.nodes.filter p := by
    cases n with
    | zero => exact ⟨_, rfl⟩
    | succ m => exact ⟨_, rfl⟩
  obtain ⟨p, hp⟩ := hrepr
  have hgoal : List.Sublist (g.nodes.filter p) (g.nodes.filter (fun v =>
      decide (v ∈ reachSet g F n ∨ ∃ u ∈ reachSet g F n, hasEdge g u v = true))) := by
    apply filter_sublist_mono
    intro a ha hpa
    have hmem : a ∈ reachSet g F n := by
      rw [hp]
      exact List.mem_filter.mpr ⟨ha, hpa⟩
    simp only [decide_eq_true_iff]
    exact Or.inl hmem
  rw [hp]
  exact hgoal

theorem reachSet_length_le (g : BAGraph) (F : List ℕ) (n : ℕ) :
    (reachSet g F n).length ≤ g.nodes.length := by
  cases n with
  | zero => exact List.length_filter_le _ _
  | succ m => exact List.length_filter_le _ _

theorem reachSet_length_lt_of_ne (g : BAGraph) (F : List ℕ) (n : ℕ)
    (h : reachSet g F (n + 1) ≠ reachSet g F n) :
    (reachSet g F n).length < (reachSet g F (n + 1)).length := by
  have hsub := reachSet_sublist_succ g F n
  rcases Nat.lt_or_ge (reachSet g F n).length (reachSet g F (n + 1)).length with hlt | hge
  · exact hlt
  · have heq : (reachSet g F n).length = (reachSet g F (n + 1)).length :=
      Nat.le_antisymm hsub.length_le hge
    exact absurd (hsub.eq_of_length heq).symm h

theorem reachSet_exists_fix (g : BAGraph) (F : List ℕ) :
    ∃ k, k ≤ g.nodes.length ∧ reachSet g F (k + 1) = reachSet g F k := by
  by_contra hcon
  push_neg at hcon
  have hgrow : ∀ m, m ≤ g.nodes.length + 1 → m ≤ (reachSet g F m).length := by
    intro m
    induction m with
    | zero => intro _; exact Nat.zero_le _
    | succ j ihj =>
      intro hm
      have hj : j ≤ g.nodes.length := Nat.lt_succ_iff.mp (Nat.lt_of_lt_of_le (Nat.lt_succ_self j) hm)
      have h1 : j ≤ (reachSet g F j).length := ihj (Nat.le_trans (Nat.le_succ j) hm)
      have h2 := reachSet_length_lt_of_ne g F j (hcon j hj)
      exact Nat.succ_le_of_lt (Nat.lt_of_le_of_lt h1 h2)
  have hbad := hgrow (g.nodes.length + 1) (Nat.le_refl _)
  exact absurd (Nat.le_trans hbad (reachSet_length_le g F _)) (Nat.not_le.mpr (Nat.lt_succ_self _))

theorem reachSet_stable_from (g : BAGraph) (F : List ℕ) (k : ℕ)
    (hfix : reachSet g F (k + 1) = reachSet g F k) :
    ∀ m, k ≤ m → reachSet g F m = reachSet g F k := by
  intro m
  induction m with
  | zero =>
    intro h0
    rw [Nat.le_zero.mp h0]
  | succ j ihj =>
    intro hm
    rcases Nat.lt_or_ge k (j + 1) with hlt | hge
    · have hkj : k ≤ j := Nat.lt_succ_iff.mp hlt
      have hsj := ihj hkj
      have hstep : reachSet g F (j + 1) = reachSet g F (k + 1) := by
        show g.nodes.filter (fun v =>
            decide (v ∈ reachSet g F j ∨ ∃ u ∈ reachSet g F j, hasEdge g u v = true))
          = g.nodes.filter (fun v =>
            decide (v ∈ reachSet g F k ∨ ∃ u ∈ reachSet g F k, hasEdge g u v = true))
        rw [hsj]
      rw [hstep, hfix]
    · have hkeq : k = j + 1 := Nat.le_antisymm hm hge
      rw [hkeq]

theorem reach_top (g : BAGraph) (F : List ℕ) (k v : ℕ) (w : HasWalk g F k v) :
    v ∈ reachSet g F g.nodes.length := by
  have hmem : v ∈ reachSet g F k := (mem_reachSet_iff g F k v).mpr ⟨k, Nat.le_refl k, w⟩
  obtain ⟨j, hj, hfix⟩ := reachSet_exists_fix g F
  rcases Nat.le_total k g.nodes.length with hle | hge
  · exact mem_reachSet_mono g F k g.nodes.length v hle hmem
  · have h1 : reachSet g F k = reachSet g F j :=
      reachSet_stable_from g F j hfix k (Nat.le_trans hj hge)
    have h2 : reachSet g F g.nodes.length = reachSet g F j :=
      reachSet_stable_from g F j hfix g.nodes.length hj
    rw [h2, ← h1]
    exact hmem

theorem firstReachAux_none (g : BAGraph) (F : List ℕ) (v : ℕ) (fuel n : ℕ) :
    firstReachAux g F v fuel n = none ↔
      ∀ j, n ≤ j → j < n + fuel → v ∉ reachSet g F j := by
  induction fuel generalizing n with
  | zero =>
    simp only [firstReachAux]
    constructor
    · intro _ j h1 h2
      exact absurd (Nat.lt_of_le_of_lt h1 h2) (Nat.lt_irrefl n)
    · intro _
      trivial
  | succ f ih =>
    simp only [firstReachAux]
    by_cases hmem : v ∈ reachSet g F n
    · rw [if_pos hmem]
      constructor
      · intro h
        exact Option.noConfusion h
      · intro hall
        exact absurd hmem (hall n (Nat.le_refl n) (by omega))
    · rw [if_neg hmem]
      rw [ih (n + 1)]
      constructor
      · intro hall j h1 h2
        rcases Nat.eq_or_lt_of_le h1 with heq | hlt
        · rw [← heq]
          exact hmem
        · exact hall j hlt (by omega)
      · intro hall j h1 h2
        exact hall j (by omega) (by omega)

theorem firstReachAux_some (g : BAGraph) (F : List ℕ) (v : ℕ) (fuel n d : ℕ)
    (h : firstReachAux g F v fuel n = some d) :
    v ∈ reachSet g F d ∧ n ≤ d ∧ (∀ j, n ≤ j → j < d → v ∉ reachSet g F j) := by
  induction fuel generalizing n with
  | zero => exact Option.noConfusion h
  | succ f ih =>
    simp only [firstReachAux] at h
    by_cases hmem : v ∈ reachSet g F n
    · rw [if_pos hmem] at h
      have hd : n = d := by
        injection h
      rw [← hd]
      exact ⟨hmem, Nat.le_refl n,
        fun j h1 h2 => absurd (Nat.lt_of_le_of_lt h1 h2) (Nat.lt_irrefl n)⟩
    · rw [if_neg hmem] at h
      obtain ⟨h1, h2, h3⟩ := ih (n + 1) h
      refine ⟨h1, by omega, ?_⟩
      intro j hj1 hj2
      rcases Nat.eq_or_lt_of_le hj1 with heq | hlt
      · rw [← heq]
        exact hmem
      · exact h3 j hlt hj2

/-- C1: the BFS distance map gives distance 0 exactly to the graph nodes in
the frontier; a positive distance d exactly to the nodes whose shortest walk
from the frontier has d hops; and the sentinel -1 exactly to the nodes not
reachable from the frontier. -/
theorem C1_computeDistances_bfs (g : BAGraph) (F : List ℕ) (v : ℕ) (hv : v ∈ g.nodes) :
    (computeDistancesMaps g F v = 0 ↔ v ∈ F)
    ∧ (∀ d : ℕ, 0 < d →
        (computeDistancesMaps g F v = (d : Int) ↔
          (HasWalk g F d v ∧ ∀ k, k < d → ¬ HasWalk g F k v)))
    ∧ (computeDistancesMaps g F v = -1 ↔ ¬ ∃ k, HasWalk g F k v) := by
  cases hfr : firstReachAux g F v (g.nodes.length + 1) 0 with
  | some m =>
    have hval : computeDistancesMaps g F v = (m : Int) := by
      unfold computeDistancesMaps
      rw [hfr]
    obtain ⟨hmem, -, hmin⟩ := firstReachAux_some g F v (g.nodes.length + 1) 0 m hfr
    rw [hval]
    refine ⟨?_, ?_, ?_⟩
    · constructor
      · intro h
        have hm0 : m = 0 := by exact_mod_cast h
        rw [hm0] at hmem
        simpa using (List.mem_filter.mp hmem).2
      · intro hF
        have h0 : v ∈ reachSet g F 0 := List.mem_filter.mpr ⟨hv, by simpa using hF⟩
        have hm0 : m = 0 := by
          by_contra hne
          exact hmin 0 (Nat.zero_le 0) (Nat.pos_of_ne_zero hne) h0
        rw [hm0]
        rfl
    · intro d hd
      constructor
      · intro h
        have hmd : m = d := by exact_mod_cast h
        rw [← hmd]
        constructor
        · obtain ⟨k, hk, w⟩ := (mem_reachSet_iff g F m v).mp hmem
          rcases Nat.eq_or_lt_of_le hk with heq | hlt
          · rw [heq] at w
            exact w
          · exact absurd ((mem_reachSet_iff g F k v).mpr ⟨k, Nat.le_refl k, w⟩)
              (hmin k (Nat.zero_le k) hlt)
        · intro k hk w
          exact hmin k (Nat.zero_le k) hk ((mem_reachSet_iff g F k v).mpr
            ⟨k, Nat.le_refl k, w⟩)
      · rintro ⟨wd, wmin⟩
        have hvd : v ∈ reachSet g F d :=
          (mem_reachSet_iff g F d v).mpr ⟨d, Nat.le_refl d, wd⟩
        have hnotlt : ∀ j, j < d → v ∉ reachSet g F j := by
          intro j hj hmemj
          obtain ⟨k, hk, w⟩ := (mem_reachSet_iff g F j v).mp hmemj
          exact wmin k (Nat.lt_of_le_of_lt hk hj) w
        have hmd : m = d := by
          rcases Nat.lt_trichotomy m d with h1 | h2 | h3
          · exact absurd hmem (hnotlt m h1)
          · exact h2
          · exact absurd hvd (hmin d (Nat.zero_le d) h3)
        rw [hmd]
    · constructor
      · intro h
        exfalso
        omega
      · intro hno
        exfalso
        obtain ⟨k, hk, w⟩ := (mem_reachSet_iff g F m v).mp hmem
        exact hno ⟨k, w⟩
  | none =>
    have hval : computeDistancesMaps g F v = -1 := by
      unfold computeDistancesMaps
      rw [hfr]
    have hnone := (firstReachAux_none g F v (g.nodes.length + 1) 0).mp hfr
    have hnotop : v ∉ reachSet g F g.nodes.length :=
      hnone g.nodes.length (Nat.zero_le _) (by omega)
    have hnowalk : ¬ ∃ k, HasWalk g F k v := by
      rintro ⟨k, w⟩
      exact hnotop (reach_top g F k v w)
    rw [hval]
    refine ⟨?_, ?_, ?_⟩
    · constructor
      · intro h
        exact absurd h (by decide)
      · intro hF
        exact absurd ⟨0, HasWalk.base v hF hv⟩ hnowalk
    · intro d hd
      constructor
      · intro h
        exfalso
        omega
      · rintro ⟨wd, -⟩
        exact absurd ⟨d, wd⟩ hnowalk
    · exact ⟨fun _ => hnowalk, fun _ => rfl⟩

/-- C1 witness: in the graph on nodes 1, 2, 3, 4 with edges 1-2 and 2-3 and
frontier 2, node 2 is at distance 0 exactly because it is in the frontier,
and the positive-distance and unreachable characterizations hold for it. -/
theorem C1_computeDistances_bfs_witness :
    (computeDistancesMaps (BAGraph.mk [1, 2, 3, 4] [(0, 1, 2), (1, 2, 3)] 2 []) [2] 2 = 0 ↔
      2 ∈ [2])
    ∧ (∀ d : ℕ, 0 < d →
        (computeDistancesMaps (BAGraph.mk [1, 2, 3, 4] [(0, 1, 2), (1, 2, 3)] 2 []) [2] 2
            = (d : Int) ↔
          (HasWalk (BAGraph.mk [1, 2, 3, 4] [(0, 1, 2), (1, 2, 3)] 2 []) [2] d 2
            ∧ ∀ k, k < d →
              ¬ HasWalk (BAGraph.mk [1, 2, 3, 4] [(0, 1, 2), (1, 2, 3)] 2 []) [2] k 2)))
    ∧ (computeDistancesMaps (BAGraph.mk [1, 2, 3, 4] [(0, 1, 2), (1, 2, 3)] 2 []) [2] 2
        = -1 ↔
      ¬ ∃ k, HasWalk (BAGraph.mk [1, 2, 3, 4] [(0, 1, 2), (1, 2, 3)] 2 []) [2] k 2) :=
  C1_computeDistances_bfs (BAGraph.mk [1, 2, 3, 4] [(0, 1, 2), (1, 2, 3)] 2 []) [2] 2
    (by decide)

end LocalBA
